import Mathlib

/-!
Verification of the timestamp algebra and transcription orchestrator of
`src/vad.py` (whisper-webui).

Shallow embedding conventions:
* Python `float` times are modelled as `ℚ` (exact arithmetic).
* A Python segment dict is modelled by the structure `Segment`.  The key
  `'end'` is called `stop` here because `end` is a Lean keyword.  Optional
  dict keys (`'expand_amount'`, `'no_speech_prob'`) are `Option ℚ` with
  `none` for "key absent"; `.getD 0` models `dict.get(key, 0)`.  The
  synthetic `'gap': True` key is the Bool field `gap` (`false` = absent).
* Python `None` parameters are `Option ℚ`.
* Code that can raise is modelled with `Except String`; the error string
  names the Python exception.
-/

/-- A segment dict of `vad.py`: `{'start': …, 'end': …, 'text': …, …}`.
`stop` is the dict key `'end'`. -/
structure Segment where
  start : ℚ
  stop : ℚ
  text : String := ""
  language : String := ""
  gap : Bool := false
  expand_amount : Option ℚ := none
  no_speech_prob : Option ℚ := none
  deriving Repr, DecidableEq

/-- A bare `{'start': a, 'end': b}` dict. -/
def seg (a b : ℚ) : Segment := { start := a, stop := b }

/-- A synthetic gap dict `{'start': a, 'end': b, 'gap': True}` as produced by
`include_gaps` / `expand_gaps` / `fill_gaps`. -/
def gapSeg (a b : ℚ) : Segment := { start := a, stop := b, gap := true }

/-- Constant `MIN_SEGMENT_DURATION = 1` (vad.py line 47). -/
def MIN_SEGMENT_DURATION : ℚ := 1

/-- Constant `PROMPT_NO_SPEECH_PROB = 0.1` (vad.py line 55). -/
def PROMPT_NO_SPEECH_PROB : ℚ := 1/10

/-!
## `AbstractTranscription.adjust_timestamp` (vad.py lines 328–347)

The loop-local `new_segment` is assigned only inside the
`if (max_source_time is not None)` branch.  `max_source_time` is fixed for
the whole call, so when it is `None` the very first iteration executes
`new_segment['start'] = …` with `new_segment` unassigned and Python raises
`UnboundLocalError`; with an empty segment list the loop body never runs and
the (empty) `result` list is returned.  When `max_source_time` is set, each
kept segment is `segment.copy()` with `start`/`end` rewritten.
-/

/-- The `max_source_time is not None` path of `adjust_timestamp`: drop
segments starting after `max_source_time`, clamp `end`, copy, shift both
times by `adjust_seconds`. -/
def adjustSome (segments : List Segment) (adjust_seconds max_source_time : ℚ) :
    List Segment :=
  segments.filterMap (fun segment =>
    if max_source_time < segment.start then none
    else some { segment with
                  start := segment.start + adjust_seconds,
                  stop := min max_source_time segment.stop + adjust_seconds })

/-- Function `adjust_timestamp(segments, adjust_seconds, max_source_time)`. -/
def adjust_timestamp (segments : List Segment) (adjust_seconds : ℚ)
    (max_source_time : Option ℚ) : Except String (List Segment) :=
  match max_source_time with
  | some m => .ok (adjustSome segments adjust_seconds m)
  | none =>
    match segments with
    | [] => .ok []
    | _ :: _ => .error "UnboundLocalError: local variable new_segment referenced before assignment"

/-!
## `AbstractTranscription.merge_timestamps` (vad.py lines 378–411)
-/

/-- The merge test of the loop body (vad.py lines 392–399): regular merge
when `distance ≤ max_merge_gap` and the current size is within
`max_merge_size` (or that is `None`); otherwise force merge when
`min_force_merge_gap` is set, `distance ≤ min_force_merge_gap` and the
current size is within `max_force_merge_size` (or that is `None`). -/
def canMerge (max_merge_gap : ℚ) (max_merge_size min_force_merge_gap max_force_merge_size : Option ℚ)
    (current_entry entry : Segment) : Bool :=
  let distance := entry.start - current_entry.stop
  let current_entry_size := current_entry.stop - current_entry.start
  (decide (distance ≤ max_merge_gap) &&
    max_merge_size.elim true (fun m => decide (current_entry_size ≤ m))) ||
  (min_force_merge_gap.elim false (fun g => decide (distance ≤ g)) &&
    max_force_merge_size.elim true (fun m => decide (current_entry_size ≤ m)))

/-- The loop of `merge_timestamps` with `current_entry` already holding the
first pending entry: on a merge, `current_entry['end'] = entry['end']`;
otherwise `current_entry` is flushed and `entry` becomes current.  The final
`current_entry` is flushed at the end. -/
def mergeLoop (max_merge_gap : ℚ) (mms mfmg mfms : Option ℚ) (current_entry : Segment) :
    List Segment → List Segment
  | [] => [current_entry]
  | entry :: rest =>
    if canMerge max_merge_gap mms mfmg mfms current_entry entry then
      mergeLoop max_merge_gap mms mfmg mfms { current_entry with stop := entry.stop } rest
    else
      current_entry :: mergeLoop max_merge_gap mms mfmg mfms entry rest

/-- Function `merge_timestamps(timestamps, max_merge_gap, max_merge_size,
min_force_merge_gap, max_force_merge_size)`: returns the input unchanged
when `max_merge_gap is None`. -/
def merge_timestamps (timestamps : List Segment)
    (max_merge_gap max_merge_size min_force_merge_gap max_force_merge_size : Option ℚ) :
    List Segment :=
  match max_merge_gap with
  | none => timestamps
  | some g =>
    match timestamps with
    | [] => []
    | entry :: rest => mergeLoop g max_merge_size min_force_merge_gap max_force_merge_size entry rest

/-!
## `AbstractTranscription.include_gaps` (vad.py lines 210–234)

The loop tracks `last_end_time` (initially `0`) and leaves `segment_start`
holding the last segment's start.  The trailing-gap test (line 229) computes
`delta = total_duration - segment_start`, i.e. from the last segment's
*start*, not from `last_end_time`.  With an empty input list `segment_start`
is never assigned, so reading it raises `UnboundLocalError`.
-/

/-- Loop body of `include_gaps`: returns the emitted entries together with
the final `last_end_time` and the final value of the loop variable
`segment_start` (`none` when the loop body never ran). -/
def includeLoop (min_gap_length : Option ℚ) :
    ℚ → Option ℚ → List Segment → List Segment × ℚ × Option ℚ
  | last_end_time, segment_startVar, [] => ([], last_end_time, segment_startVar)
  | last_end_time, _, segment :: rest =>
    let segment_start := segment.start
    let segment_end := segment.stop
    let emitGap : Bool :=
      if last_end_time = segment_start then false
      else
        match min_gap_length with
        | none => true
        | some m => decide (m ≤ segment_start - last_end_time)
    let r := includeLoop min_gap_length segment_end (some segment_start) rest
    ((if emitGap then [gapSeg last_end_time segment_start] else []) ++ segment :: r.1,
      r.2.1, r.2.2)

/-- Function `include_gaps(segments, min_gap_length, total_duration)`. -/
def include_gaps (segments : List Segment) (min_gap_length total_duration : Option ℚ) :
    Except String (List Segment) :=
  let r := includeLoop min_gap_length 0 none segments
  let result := r.1
  let last_end_time := r.2.1
  match total_duration with
  | none => .ok result
  | some t =>
    if last_end_time < t then
      match r.2.2 with
      | none => .error "UnboundLocalError: local variable segment_start referenced before assignment"
      | some segment_start =>
        let delta := t - segment_start
        let emitGap : Bool :=
          match min_gap_length with
          | none => true
          | some m => decide (m ≤ delta)
        .ok (result ++ if emitGap then [gapSeg last_end_time t] else [])
    else .ok result

/-!
## `AbstractTranscription.expand_gaps` (vad.py lines 237–274)
-/

/-- The pair loop of `expand_gaps` (lines 247–263): for each adjacent pair,
when the gap `delta = next.start − current.end` is `≥ 0`, emit a copy of the
current segment with `expand_amount = delta` and `end = next.start`; the
final segment is emitted unchanged. -/
def expandPairs : List Segment → List Segment
  | [] => []
  | [last_segment] => [last_segment]
  | current_segment :: next_segment :: rest =>
    (if 0 ≤ next_segment.start - current_segment.stop then
      { current_segment with
          expand_amount := some (next_segment.start - current_segment.stop),
          stop := next_segment.start }
    else current_segment) :: expandPairs (next_segment :: rest)

/-- The `total_duration` epilogue of `expand_gaps` (lines 266–272): when the
last entry ends before `total`, rewrite its `end` to `total`. -/
def raiseLastEnd (total : ℚ) : List Segment → List Segment
  | [] => []
  | [last_segment] =>
    if last_segment.stop < total then [{ last_segment with stop := total }] else [last_segment]
  | x :: y :: rest => x :: raiseLastEnd total (y :: rest)

/-- Function `expand_gaps(segments, total_duration)`: empty input gives empty output;
a leading `gap` interval is prepended when `segments[0].start > 0`. -/
def expand_gaps (segments : List Segment) (total_duration : Option ℚ) : List Segment :=
  match segments with
  | [] => []
  | s0 :: rest =>
    let result := (if 0 < s0.start then [gapSeg 0 s0.start] else []) ++ expandPairs (s0 :: rest)
    match total_duration with
    | none => result
    | some t => raiseLastEnd t result

/-!
## `AbstractTranscription.fill_gaps` (vad.py lines 276–326)
-/

/-- The pair loop of `fill_gaps` (lines 286–304): a gap is absorbed into the
current segment when `max_expand_size` is set and `delta ≤ max_expand_size`;
otherwise the segment is emitted unchanged and, when `delta ≥ 0`, an
explicit `gap` interval follows it. -/
def fillPairs (max_expand_size : Option ℚ) : List Segment → List Segment
  | [] => []
  | [last_segment] => [last_segment]
  | current_segment :: next_segment :: rest =>
    let delta := next_segment.start - current_segment.stop
    if max_expand_size.elim false (fun m => decide (delta ≤ m)) then
      { current_segment with expand_amount := some delta, stop := next_segment.start } ::
        fillPairs max_expand_size (next_segment :: rest)
    else
      current_segment ::
        ((if 0 ≤ delta then [gapSeg current_segment.stop next_segment.start] else []) ++
          fillPairs max_expand_size (next_segment :: rest))

/-- The `total_duration` epilogue of `fill_gaps` (lines 311–324): a positive
trailing gap is absorbed into the last entry when small enough, otherwise
appended as an explicit `gap` interval. -/
def fillLast (total_duration max_expand_size : Option ℚ) : List Segment → List Segment
  | [] => []
  | [last_segment] =>
    match total_duration with
    | none => [last_segment]
    | some t =>
      let delta := t - last_segment.stop
      if 0 < delta then
        if max_expand_size.elim false (fun m => decide (delta ≤ m)) then
          [{ last_segment with expand_amount := some delta, stop := t }]
        else [last_segment, gapSeg last_segment.stop t]
      else [last_segment]
  | x :: y :: rest => x :: fillLast total_duration max_expand_size (y :: rest)

/-- Function `fill_gaps(segments, total_duration, max_expand_size)`. -/
def fill_gaps (segments : List Segment) (total_duration max_expand_size : Option ℚ) :
    List Segment :=
  match segments with
  | [] => []
  | s0 :: rest =>
    fillLast total_duration max_expand_size
      ((if 0 < s0.start then [gapSeg 0 s0.start] else []) ++ fillPairs max_expand_size (s0 :: rest))

/-!
## Exact coverage (claim C2)
-/

/-- Predicate `covers a l t`: the entries of `l` tile `[a, t]` exactly: the first
entry starts at `a`, each entry's `end` is the next entry's `start`, and the
last entry ends at `t` (for `l = []` this degenerates to `a = t`). -/
def covers (a : ℚ) : List Segment → ℚ → Prop
  | [], t => a = t
  | s :: rest, t => s.start = a ∧ covers s.stop rest t

/-- The `end` of the last entry of a non-empty list. -/
def lastStop : Segment → List Segment → ℚ
  | s, [] => s.stop
  | _, y :: rest => lastStop y rest

/-!
## `AbstractTranscription.pad_timestamps` (vad.py lines 349–376)

The loop keeps `prev_entry`, the previously *padded* entry (`None` before the
first iteration), and reads the next *raw* entry for the right clamp.  The
output entries are bare `{'start', 'end'}` dicts.
-/

/-- Line 364: `segment_start = max(prev_entry['end'] if prev_entry else 0,
segment_start - padding_left)`, skipped when `padding_left is None`. -/
def padNewStart (padding_left : Option ℚ) (prev_entry : Option Segment) (curr : Segment) : ℚ :=
  match padding_left with
  | some p => max (match prev_entry with | some pe => pe.stop | none => 0) (curr.start - p)
  | none => curr.start

/-- Lines 365–370: `segment_end = segment_end + padding_right`, clamped to
`next_entry['start']` when there is a next entry; skipped when
`padding_right is None`. -/
def padNewEnd (padding_right : Option ℚ) (next_entry : Option Segment) (curr : Segment) : ℚ :=
  match padding_right with
  | some p =>
    match next_entry with
    | some nx => min nx.start (curr.stop + p)
    | none => curr.stop + p
  | none => curr.stop

/-- The loop of `pad_timestamps` (lines 356–374). -/
def padLoop (padding_left padding_right : Option ℚ) :
    Option Segment → List Segment → List Segment
  | _, [] => []
  | prev_entry, curr :: rest =>
    seg (padNewStart padding_left prev_entry curr) (padNewEnd padding_right rest.head? curr) ::
      padLoop padding_left padding_right
        (some (seg (padNewStart padding_left prev_entry curr)
          (padNewEnd padding_right rest.head? curr))) rest

/-- Function `pad_timestamps(timestamps, padding_left, padding_right)`: returns the
input unchanged when both paddings equal `0` (a `None` padding does not
trigger the early return, since `None == 0` is false in Python). -/
def pad_timestamps (timestamps : List Segment) (padding_left padding_right : Option ℚ) :
    List Segment :=
  if padding_left = some 0 ∧ padding_right = some 0 then timestamps
  else padLoop padding_left padding_right none timestamps

/-!
## Neighbor bounds for padding (claim C3)
-/

/-- Predicate `headLink prevRaw raw`: the previous raw entry (if any) ends no later
than the first entry of `raw` starts. -/
def headLink : Option Segment → List Segment → Prop
  | none, _ => True
  | some a, raw => ∀ r ∈ raw.head?, a.stop ≤ r.start

/-- Lower bound for a padded entry's start: `0` when there is no previous
raw entry, otherwise the previous raw entry's `end`. -/
def startBound : Option Segment → ℚ → Prop
  | none, x => 0 ≤ x
  | some a, x => a.stop ≤ x

/-- Invariant linking the previous raw entry and the previous padded entry
of the loop: both absent, or the padded one ends no earlier. -/
def prevPair : Option Segment → Option Segment → Prop
  | none, none => True
  | some a, some b => a.stop ≤ b.stop
  | _, _ => False

/-- Predicate `padBounds prevRaw raw padded`: positionally, each padded entry starts
no earlier than the previous *raw* entry's `end` (`0` for the first) and
ends no later than the next *raw* entry's `start` (unbounded for the
last). -/
def padBounds : Option Segment → List Segment → List Segment → Prop
  | _, [], [] => True
  | prevRaw, r :: rs, p :: _ps =>
    startBound prevRaw p.start ∧
    (∀ nx ∈ rs.head?, p.stop ≤ nx.start) ∧
    padBounds (some r) rs _ps
  | _, _, _ => False

/-!
## `AbstractTranscription.__update_prompt_window` (vad.py lines 193–208)

Active only when `max_prompt_window is not None and max_prompt_window > 0`:
append the adjusted segments whose `no_speech_prob` (absent = `0`) is at
most `PROMPT_NO_SPEECH_PROB`, then pop from the front while the front
segment's `end − expand_amount` (absent = `0`) is below
`segment_end − max_prompt_window`, stopping (`break`) at the first front
segment that satisfies the bound.  `deque.popleft` with the `break` is
exactly `List.dropWhile`.
-/

/-- Method `__update_prompt_window(prompt_window, adjusted_segments, segment_end)`,
returning the new window contents. -/
def update_prompt_window (max_prompt_window : Option ℚ)
    (prompt_window adjusted_segments : List Segment) (segment_end : ℚ) : List Segment :=
  match max_prompt_window with
  | none => prompt_window
  | some mpw =>
    if 0 < mpw then
      (prompt_window ++ adjusted_segments.filter
          (fun s => decide (s.no_speech_prob.getD 0 ≤ PROMPT_NO_SPEECH_PROB))).dropWhile
        (fun s => decide (s.stop - s.expand_amount.getD 0 < segment_end - mpw))
    else prompt_window

/-!
## `VadPeriodicTranscription.get_transcribe_timestamps` (vad.py lines 470–488)

The `while (start_timestamp < audio_duration)` loop is modelled with
explicit fuel: `none` means the fuel ran out with the loop condition still
true (the Python loop would still be running), `some` is normal loop exit
with the accumulated `result` list.  One iteration computes
`end_timestamp = min(start_timestamp + periodic_duration, audio_duration)`,
appends `{start_timestamp, end_timestamp}` when the duration is `≥ 1`, and
sets `start_timestamp = end_timestamp`.
-/

/-- The periodic-timestamp loop with fuel.  The accumulator is kept
reversed; `some result.reverse` is returned on loop exit. -/
def periodicLoop (periodic_duration audio_duration : ℚ) :
    Nat → ℚ → List Segment → Option (List Segment)
  | 0, start_timestamp, result =>
    if start_timestamp < audio_duration then none else some result.reverse
  | fuel + 1, start_timestamp, result =>
    if start_timestamp < audio_duration then
      periodicLoop periodic_duration audio_duration fuel
        (min (start_timestamp + periodic_duration) audio_duration)
        (if 1 ≤ min (start_timestamp + periodic_duration) audio_duration - start_timestamp then
          seg start_timestamp (min (start_timestamp + periodic_duration) audio_duration) :: result
        else result)
    else some result.reverse

/-!
## `AbstractTranscription.transcribe` (vad.py lines 92–191)

The per-interval loop (lines 146–186) is modelled over the already
normalized `merged` list.  The audio buffer passed to `whisperCallable` is
fully determined by `(segment_start, segment_duration)`, so the callback is
modelled as a function of the start, the duration and the optional prompt.
The model returns the final loop state together with the trace of
`(interval, whisper result)` pairs for exactly those intervals for which the
transcriber was invoked (audio is loaded in the same non-skipped branch,
line 157).  `adjust_timestamp` is always called with
`max_source_time = segment_duration` (line 165), i.e. on the `adjustSome`
path.
-/

/-- The result of one `whisperCallable(segment_audio, segment_prompt)`
invocation: `{'text', 'segments', 'language'}`. -/
structure WhisperOutput where
  text : String
  segments : List Segment
  language : String
  deriving Repr, DecidableEq

/-- The mutable state of the `transcribe` loop: the accumulating result
dict (`text`, `segments`), the `languageCounter` (insertion-ordered
key/count pairs, modelling `collections.Counter`) and the prompt window. -/
structure TState where
  text : String
  segments : List Segment
  languageCounter : List (String × Nat)
  prompt_window : List Segment
  deriving Repr, DecidableEq

/-- Update `languageCounter[language] += 1`: a missing key is appended at the end
with count 1, an existing key's count is bumped in place (Python dicts,
hence `Counter`, preserve insertion order). -/
def counterIncrement : List (String × Nat) → String → List (String × Nat)
  | [], language => [(language, 1)]
  | (k, n) :: rest, language =>
    if k = language then (k, n + 1) :: rest else (k, n) :: counterIncrement rest language

/-- Scan keeping the first entry with the maximal count (replace only on a
strictly larger count). -/
def mcGo : String × Nat → List (String × Nat) → String × Nat
  | best, [] => best
  | best, p :: rest => if best.2 < p.2 then mcGo p rest else mcGo best rest

/-- Model of `Counter.most_common(1)[0]`: `heapq.nlargest(1, items, key=count)` is a
stable descending sort, so ties are broken by insertion order — the first
entry with the maximal count wins. -/
def most_common1 : List (String × Nat) → Option (String × Nat)
  | [] => none
  | b :: rest => some (mcGo b rest)

/-- Prompt `' '.join(segment['text'] for segment in prompt_window)` when the window
is non-empty, else `None` (line 159). -/
def segmentPrompt (prompt_window : List Segment) : Option String :=
  if prompt_window.isEmpty then none
  else some (String.intercalate " " (prompt_window.map Segment.text))

/-- Lines 168–176: when the processed interval was expanded, every adjusted
segment whose (rebased) `end` exceeds `segment_duration − expand_amount`
gets `expand_amount = end − (segment_duration − expand_amount)` (the code
compares the rebased, global `end` against the window-local
`segment_without_expansion`). -/
def propagateExpand (segment : Segment) (segment_duration : ℚ)
    (adjusted_segments : List Segment) : List Segment :=
  if 0 < segment.expand_amount.getD 0 then
    adjusted_segments.map (fun a =>
      if segment_duration - segment.expand_amount.getD 0 < a.stop then
        { a with
          expand_amount := some (a.stop - (segment_duration - segment.expand_amount.getD 0)) }
      else a)
  else adjusted_segments

/-- The whisper invocation for one processed interval (line 163). -/
def stepResult (whisperCallable : ℚ → ℚ → Option String → WhisperOutput)
    (st : TState) (segment : Segment) : WhisperOutput :=
  whisperCallable segment.start (segment.stop - segment.start)
    (segmentPrompt st.prompt_window)

/-- The state after processing one non-skipped interval
(lines 157–186). -/
def stepState (max_prompt_window : Option ℚ)
    (whisperCallable : ℚ → ℚ → Option String → WhisperOutput)
    (st : TState) (segment : Segment) : TState :=
  let segment_result := stepResult whisperCallable st segment
  let adjusted_segments := propagateExpand segment (segment.stop - segment.start)
    (adjustSome segment_result.segments segment.start (segment.stop - segment.start))
  { text := st.text ++ segment_result.text,
    segments := st.segments ++ adjusted_segments,
    languageCounter := counterIncrement st.languageCounter segment_result.language,
    prompt_window :=
      update_prompt_window max_prompt_window st.prompt_window adjusted_segments segment.stop }

/-- The `for segment in merged` loop of `transcribe`: an interval shorter
than `MIN_SEGMENT_DURATION` is skipped by `continue` (lines 153–154);
otherwise whisper runs and the state is updated.  Returns the final state
and the invocation trace. -/
def transcribeRun (max_prompt_window : Option ℚ)
    (whisperCallable : ℚ → ℚ → Option String → WhisperOutput) :
    TState → List Segment → TState × List (Segment × WhisperOutput)
  | st, [] => (st, [])
  | st, segment :: rest =>
    if segment.stop - segment.start < MIN_SEGMENT_DURATION then
      transcribeRun max_prompt_window whisperCallable st rest
    else
      ((transcribeRun max_prompt_window whisperCallable
          (stepState max_prompt_window whisperCallable st segment) rest).1,
        (segment, stepResult whisperCallable st segment) ::
          (transcribeRun max_prompt_window whisperCallable
            (stepState max_prompt_window whisperCallable st segment) rest).2)

/-- The initial loop state (lines 117, 138–143). -/
def initState : TState :=
  { text := "", segments := [], languageCounter := [], prompt_window := [] }

/-- Result `{'text', 'segments', 'language'}` as returned by `transcribe`. -/
structure TranscriptionResult where
  text : String
  segments : List Segment
  language : String
  deriving Repr, DecidableEq

/-- Function `transcribe` over the normalized `merged` list: run the loop, then set
`language` from `languageCounter.most_common(1)[0][0]` when any vote was
cast (lines 188–189), else leave it `""`. -/
def transcribe (max_prompt_window : Option ℚ)
    (whisperCallable : ℚ → ℚ → Option String → WhisperOutput)
    (merged : List Segment) : TranscriptionResult :=
  { text := (transcribeRun max_prompt_window whisperCallable initState merged).1.text,
    segments := (transcribeRun max_prompt_window whisperCallable initState merged).1.segments,
    language :=
      match most_common1
          (transcribeRun max_prompt_window whisperCallable initState merged).1.languageCounter with
      | some p => p.1
      | none => "" }

/-- The languages voted by the transcriber outputs of the processed
intervals, in processing order (line 183). -/
def transcribeVotes (max_prompt_window : Option ℚ)
    (whisperCallable : ℚ → ℚ → Option String → WhisperOutput)
    (merged : List Segment) : List String :=
  (transcribeRun max_prompt_window whisperCallable initState merged).2.map
    (fun p => p.2.language)

/-!
## Language vote bookkeeping (claim C8)

`counterIncrement` builds exactly the `collections.Counter` of the vote
list: counts are occurrence counts, and the key order is the order of first
occurrence.  `most_common1` then returns the first-inserted key of maximal
count, i.e. the earliest-voted language among the tied maxima.
-/

/-- Number of occurrences of `l` in a vote list. -/
def countVotes : List String → String → Nat
  | [], _ => 0
  | v :: rest, l => (if v = l then 1 else 0) + countVotes rest l

/-- Index of the first occurrence of `l` (length of the list when
absent). -/
def firstIdx : List String → String → Nat
  | [], _ => 0
  | v :: rest, l => if v = l then 0 else firstIdx rest l + 1

/-- Count stored for key `l` in a counter (0 when absent). -/
def countIn : List (String × Nat) → String → Nat
  | [], _ => 0
  | (k, n) :: rest, l => if k = l then n else countIn rest l

/-- The keys of a counter, in insertion order. -/
def keysOf (c : List (String × Nat)) : List String := c.map Prod.fst

/-- A counter is faithful to a vote list: counts are occurrence counts and
the keys are listed in strictly increasing order of first occurrence. -/
def CounterSpec (votes : List String) (c : List (String × Nat)) : Prop :=
  (∀ x, countIn c x = countVotes votes x) ∧
  (∀ k ∈ keysOf c, k ∈ votes) ∧
  List.Pairwise (fun a b => firstIdx votes a < firstIdx votes b) (keysOf c)

/-- Transcriber used in the spec's scenario S6: votes `en, en, fr` over the
three intervals starting at `0`, `10`, `20`. -/
def whisperVoteExample : ℚ → ℚ → Option String → WhisperOutput :=
  fun segment_start _ _ => ⟨"", [], if segment_start < 20 then "en" else "fr"⟩

/-- Transcriber for the tied scenario: votes `en, fr` over the two
intervals starting at `0`, `10`. -/
def whisperTieExample : ℚ → ℚ → Option String → WhisperOutput :=
  fun segment_start _ _ => ⟨"", [], if segment_start < 10 then "en" else "fr"⟩

@[simp] theorem seg_start (a b : ℚ) : (seg a b).start = a := rfl

@[simp] theorem seg_stop (a b : ℚ) : (seg a b).stop = b := rfl

theorem lastStop_mem : ∀ (s : Segment) (rest : List Segment),
    ∃ x ∈ s :: rest, x.stop = lastStop s rest := by
  intro s rest
  induction rest generalizing s with
  | nil => exact ⟨s, List.mem_cons_self s [], rfl⟩
  | cons y r ih =>
    obtain ⟨x, hx, he⟩ := ih y
    exact ⟨x, List.mem_cons_of_mem s hx, he⟩

theorem covers_expandPairs : ∀ (rest : List Segment) (s : Segment),
    List.Chain' (fun a b => a.stop ≤ b.start) (s :: rest) →
    covers s.start (expandPairs (s :: rest)) (lastStop s rest) := by
  intro rest
  induction rest with
  | nil => intro s _; exact ⟨rfl, rfl⟩
  | cons y r ih =>
    intro s hchain
    rw [List.chain'_cons] at hchain
    rw [expandPairs, if_pos (by linarith [hchain.1])]
    exact ⟨rfl, ih y hchain.2⟩

theorem covers_fillPairs (max_expand_size : Option ℚ) : ∀ (rest : List Segment) (s : Segment),
    List.Chain' (fun a b => a.stop ≤ b.start) (s :: rest) →
    covers s.start (fillPairs max_expand_size (s :: rest)) (lastStop s rest) := by
  intro rest
  induction rest with
  | nil => intro s _; exact ⟨rfl, rfl⟩
  | cons y r ih =>
    intro s hchain
    rw [List.chain'_cons] at hchain
    rw [fillPairs]
    by_cases habs : max_expand_size.elim false (fun m => decide (y.start - s.stop ≤ m))
    · rw [if_pos habs]
      exact ⟨rfl, ih y hchain.2⟩
    · rw [if_neg habs, if_pos (by linarith [hchain.1])]
      exact ⟨rfl, rfl, ih y hchain.2⟩

theorem covers_raiseLastEnd : ∀ (l : List Segment) (a e t : ℚ), l ≠ [] →
    covers a l e → e ≤ t → covers a (raiseLastEnd t l) t := by
  intro l
  induction l with
  | nil => intro a e t h; exact absurd rfl h
  | cons x rest ih =>
    intro a e t _ hc het
    cases rest with
    | nil =>
      obtain ⟨hx, he⟩ := hc
      rw [raiseLastEnd]
      by_cases hlt : x.stop < t
      · rw [if_pos hlt]; exact ⟨hx, rfl⟩
      · rw [if_neg hlt]
        exact ⟨hx, le_antisymm (he ▸ het) (not_lt.mp hlt)⟩
    | cons y r =>
      obtain ⟨hx, hc'⟩ := hc
      exact ⟨hx, ih x.stop e t (by simp) hc' het⟩

theorem covers_fillLast (max_expand_size : Option ℚ) :
    ∀ (l : List Segment) (a e t : ℚ), l ≠ [] →
    covers a l e → e ≤ t → covers a (fillLast (some t) max_expand_size l) t := by
  intro l
  induction l with
  | nil => intro a e t h; exact absurd rfl h
  | cons x rest ih =>
    intro a e t _ hc het
    cases rest with
    | nil =>
      obtain ⟨hx, he⟩ := hc
      rw [fillLast]
      by_cases hpos : 0 < t - x.stop
      · rw [if_pos hpos]
        by_cases habs : max_expand_size.elim false (fun m => decide (t - x.stop ≤ m))
        · rw [if_pos habs]; exact ⟨hx, rfl⟩
        · rw [if_neg habs]
          exact ⟨hx, by simp [covers, gapSeg]⟩
      · rw [if_neg hpos]
        have he' : x.stop = e := he
        exact ⟨hx, show x.stop = t from le_antisymm (he' ▸ het) (by linarith [not_lt.mp hpos])⟩
    | cons y r =>
      obtain ⟨hx, hc'⟩ := hc
      exact ⟨hx, ih x.stop e t (by simp) hc' het⟩

theorem expandPairs_ne_nil (s : Segment) (rest : List Segment) :
    expandPairs (s :: rest) ≠ [] := by
  cases rest <;> simp [expandPairs]

theorem fillPairs_ne_nil (max_expand_size : Option ℚ) (s : Segment) (rest : List Segment) :
    fillPairs max_expand_size (s :: rest) ≠ [] := by
  cases rest with
  | nil => simp [fillPairs]
  | cons y r =>
    rw [fillPairs]
    by_cases habs : max_expand_size.elim false (fun m => decide (y.start - s.stop ≤ m))
    · rw [if_pos habs]; simp
    · rw [if_neg habs]; simp

theorem raiseLastEnd_ne_nil (t : ℚ) : ∀ (l : List Segment), l ≠ [] →
    raiseLastEnd t l ≠ [] := by
  intro l
  induction l with
  | nil => intro h; exact absurd rfl h
  | cons x rest ih =>
    intro _
    cases rest with
    | nil =>
      rw [raiseLastEnd]
      by_cases hlt : x.stop < t <;> simp [hlt]
    | cons y r => simp [raiseLastEnd]

theorem fillLast_ne_nil (total max_expand_size : Option ℚ) : ∀ (l : List Segment), l ≠ [] →
    fillLast total max_expand_size l ≠ [] := by
  intro l
  induction l with
  | nil => intro h; exact absurd rfl h
  | cons x rest ih =>
    intro _
    cases rest with
    | nil =>
      cases total with
      | none => simp [fillLast]
      | some t =>
        rw [fillLast]
        by_cases hpos : 0 < t - x.stop
        · rw [if_pos hpos]
          by_cases habs : max_expand_size.elim false (fun m => decide (t - x.stop ≤ m))
          · rw [if_pos habs]; simp
          · rw [if_neg habs]; simp
        · rw [if_neg hpos]; simp
    | cons y r => simp [fillLast]

/-- C2: for a non-empty, sorted, non-overlapping interval list contained in
`[0, total_duration]`, the outputs of `fill_gaps` (any `max_expand_size`,
the `CREATE_SEGMENT` strategy) and of `expand_gaps` (the `EXPAND_SEGMENT`
strategy) tile `[0, total_duration]` exactly, without overlaps: the first
entry starts at `0`, each entry's `end` equals the next entry's `start`, and
the last entry ends at `total_duration`. -/
theorem fill_and_expand_gaps_cover (l : List Segment) (t : ℚ) (max_expand_size : Option ℚ)
    (hne : l ≠ [])
    (hsort : List.Chain' (fun a b => a.stop ≤ b.start) l)
    (hin : ∀ s ∈ l, 0 ≤ s.start ∧ s.stop ≤ t) :
    (fill_gaps l (some t) max_expand_size ≠ [] ∧
      covers 0 (fill_gaps l (some t) max_expand_size) t) ∧
    (expand_gaps l (some t) ≠ [] ∧ covers 0 (expand_gaps l (some t)) t) := by
  cases l with
  | nil => exact absurd rfl hne
  | cons s0 rest =>
    have hlast : lastStop s0 rest ≤ t := by
      obtain ⟨x, hx, he⟩ := lastStop_mem s0 rest
      exact he ▸ (hin x hx).2
    have hs0 : 0 ≤ s0.start := (hin s0 (List.mem_cons_self s0 rest)).1
    have hexp : covers 0 ((if 0 < s0.start then [gapSeg 0 s0.start] else []) ++
        expandPairs (s0 :: rest)) (lastStop s0 rest) := by
      by_cases h0 : 0 < s0.start
      · rw [if_pos h0, List.singleton_append]
        exact ⟨rfl, covers_expandPairs rest s0 hsort⟩
      · rw [if_neg h0, List.nil_append]
        have : s0.start = 0 := le_antisymm (not_lt.mp h0) hs0
        exact this ▸ covers_expandPairs rest s0 hsort
    have hfil : covers 0 ((if 0 < s0.start then [gapSeg 0 s0.start] else []) ++
        fillPairs max_expand_size (s0 :: rest)) (lastStop s0 rest) := by
      by_cases h0 : 0 < s0.start
      · rw [if_pos h0, List.singleton_append]
        exact ⟨rfl, covers_fillPairs max_expand_size rest s0 hsort⟩
      · rw [if_neg h0, List.nil_append]
        have : s0.start = 0 := le_antisymm (not_lt.mp h0) hs0
        exact this ▸ covers_fillPairs max_expand_size rest s0 hsort
    have hexp_ne : ((if 0 < s0.start then [gapSeg 0 s0.start] else []) ++
        expandPairs (s0 :: rest)) ≠ [] := by
      simp [List.append_eq_nil, expandPairs_ne_nil s0 rest]
    have hfil_ne : ((if 0 < s0.start then [gapSeg 0 s0.start] else []) ++
        fillPairs max_expand_size (s0 :: rest)) ≠ [] := by
      simp [List.append_eq_nil, fillPairs_ne_nil max_expand_size s0 rest]
    refine ⟨⟨?_, ?_⟩, ⟨?_, ?_⟩⟩
    · exact fillLast_ne_nil (some t) max_expand_size _ hfil_ne
    · exact covers_fillLast max_expand_size _ 0 (lastStop s0 rest) t hfil_ne hfil hlast
    · exact raiseLastEnd_ne_nil t _ hexp_ne
    · exact covers_raiseLastEnd _ 0 (lastStop s0 rest) t hexp_ne hexp hlast

/-- Witness for C2 at the spec's scenario S4-style input `[{1,2},{3,4}]`,
`total_duration = 10`, `max_expand_size = 5`. -/
theorem fill_and_expand_gaps_cover_witness :
    (fill_gaps [seg 1 2, seg 3 4] (some 10) (some 5) ≠ [] ∧
      covers 0 (fill_gaps [seg 1 2, seg 3 4] (some 10) (some 5)) 10) ∧
    (expand_gaps [seg 1 2, seg 3 4] (some 10) ≠ [] ∧
      covers 0 (expand_gaps [seg 1 2, seg 3 4] (some 10)) 10) :=
  fill_and_expand_gaps_cover [seg 1 2, seg 3 4] 10 (some 5) (by simp)
    (by norm_num [List.chain'_cons, List.chain'_singleton, seg])
    (by norm_num [seg])

theorem padBounds_self : ∀ (raw : List Segment) (prevRaw : Option Segment),
    (∀ s ∈ raw, 0 ≤ s.start) →
    List.Chain' (fun a b => a.stop ≤ b.start) raw →
    headLink prevRaw raw →
    padBounds prevRaw raw raw := by
  intro raw
  induction raw with
  | nil => intro prevRaw _ _ _; cases prevRaw <;> trivial
  | cons r rs ih =>
    intro prevRaw hstart hchain hlink
    rw [List.chain'_cons'] at hchain
    refine ⟨?_, ?_, ?_⟩
    · cases prevRaw with
      | none => exact hstart r (List.mem_cons_self r rs)
      | some a => exact hlink r rfl
    · exact fun nx hnx => hchain.1 nx hnx
    · exact ih (some r) (fun s hs => hstart s (List.mem_cons_of_mem r hs)) hchain.2
        (fun nx hnx => hchain.1 nx hnx)

theorem padNewStart_nonneg (padding_left : Option ℚ) (curr : Segment)
    (h : 0 ≤ curr.start) : 0 ≤ padNewStart padding_left none curr := by
  cases padding_left with
  | none => exact h
  | some p => exact le_trans (le_refl 0) (le_max_left _ _)

theorem padNewStart_ge_prev (padding_left : Option ℚ) (a b curr : Segment)
    (hab : a.stop ≤ b.stop) (hac : a.stop ≤ curr.start) :
    a.stop ≤ padNewStart padding_left (some b) curr := by
  cases padding_left with
  | none => exact hac
  | some p => exact le_trans hab (le_max_left _ _)

theorem padNewEnd_le_next (padding_right : Option ℚ) (nx curr : Segment)
    (h : curr.stop ≤ nx.start) : padNewEnd padding_right (some nx) curr ≤ nx.start := by
  cases padding_right with
  | none => exact h
  | some p => exact min_le_left _ _

theorem padNewEnd_ge_stop (padding_right : Option ℚ) (next_entry : Option Segment)
    (curr : Segment) (hpr : ∀ p ∈ padding_right, 0 ≤ p)
    (hnx : ∀ nx ∈ next_entry, curr.stop ≤ nx.start) :
    curr.stop ≤ padNewEnd padding_right next_entry curr := by
  cases padding_right with
  | none => exact le_refl _
  | some p =>
    have hp : 0 ≤ p := hpr p rfl
    cases next_entry with
    | none => show curr.stop ≤ curr.stop + p; linarith
    | some nx =>
      show curr.stop ≤ min nx.start (curr.stop + p)
      exact le_min (hnx nx rfl) (by linarith)

/-- The start of a freshly padded entry respects the previous raw entry's
`end`. -/
theorem startBound_padNewStart (padding_left : Option ℚ)
    (prevRaw prevPad : Option Segment) (curr : Segment) (rs : List Segment)
    (hpp : prevPair prevRaw prevPad) (hc0 : 0 ≤ curr.start)
    (hlink : headLink prevRaw (curr :: rs)) :
    startBound prevRaw (padNewStart padding_left prevPad curr) := by
  cases prevRaw with
  | none =>
    cases prevPad with
    | none => exact padNewStart_nonneg padding_left curr hc0
    | some b => exact absurd hpp (by simp [prevPair])
  | some a =>
    cases prevPad with
    | none => exact absurd hpp (by simp [prevPair])
    | some b => exact padNewStart_ge_prev padding_left a b curr hpp (hlink curr rfl)

theorem padLoop_bounds (padding_left padding_right : Option ℚ)
    (hpr : ∀ p ∈ padding_right, 0 ≤ p) :
    ∀ (raw : List Segment) (prevRaw prevPad : Option Segment),
    (∀ s ∈ raw, 0 ≤ s.start) →
    List.Chain' (fun a b => a.stop ≤ b.start) raw →
    prevPair prevRaw prevPad →
    headLink prevRaw raw →
    padBounds prevRaw raw (padLoop padding_left padding_right prevPad raw) := by
  intro raw
  induction raw with
  | nil => intro prevRaw prevPad _ _ _ _; trivial
  | cons curr rs ih =>
    intro prevRaw prevPad hstart hchain hpp hlink
    rw [List.chain'_cons'] at hchain
    rw [padLoop]
    refine ⟨?_, ?_, ?_⟩
    · rw [seg_start]
      exact startBound_padNewStart padding_left prevRaw prevPad curr rs hpp
        (hstart curr (List.mem_cons_self curr rs)) hlink
    · intro nx hnx
      rw [seg_stop]
      have h2 : rs.head? = some nx := hnx
      rw [h2]
      exact padNewEnd_le_next padding_right nx curr (hchain.1 nx hnx)
    · refine ih (some curr) (some _) (fun s hs => hstart s (List.mem_cons_of_mem curr hs))
        hchain.2 ?_ (fun nx hnx => hchain.1 nx hnx)
      show curr.stop ≤ (seg _ (padNewEnd padding_right rs.head? curr)).stop
      rw [seg_stop]
      exact padNewEnd_ge_stop padding_right rs.head? curr hpr
        (fun nx hnx => hchain.1 nx hnx)

/-- C3 counterexample: the claim quantifies over *any* left/right padding
values, but with `pad_left = 100` and `pad_right = −5` on the sorted,
non-overlapping input `[{0,10},{20,30}]` the second padded entry is
`{5,25}`, whose start `5` is below `raw_0.end = 10`. -/
theorem pad_timestamps_neg_padding_counterexample :
    pad_timestamps [seg 0 10, seg 20 30] (some 100) (some (-5)) = [seg 0 5, seg 5 25] ∧
    ¬ ((seg 0 10).stop ≤ (seg 5 25).start) := by
  constructor
  · norm_num [pad_timestamps, padLoop, padNewStart, padNewEnd, seg, max_def, min_def]
  · norm_num [seg]

/-- C3 (amended): for every sorted, non-overlapping input list with all
starts `≥ 0`, any `padding_left` (`None` or any value), and `padding_right`
either `None` or non-negative, each entry of `pad_timestamps` starts no
earlier than the previous raw entry's `end` (`≥ 0` for the first) and ends
no later than the next raw entry's `start` (unbounded for the last).  The
original claim's "any padding values" fails for negative `pad_right`
(see the counterexample). -/
theorem pad_timestamps_bounds (raw : List Segment) (padding_left padding_right : Option ℚ)
    (hstart : ∀ s ∈ raw, 0 ≤ s.start)
    (hsort : List.Chain' (fun a b => a.stop ≤ b.start) raw)
    (hpr : ∀ p ∈ padding_right, 0 ≤ p) :
    padBounds none raw (pad_timestamps raw padding_left padding_right) := by
  rw [pad_timestamps]
  by_cases hz : padding_left = some 0 ∧ padding_right = some 0
  · rw [if_pos hz]
    exact padBounds_self raw none hstart hsort trivial
  · rw [if_neg hz]
    exact padLoop_bounds padding_left padding_right hpr raw none none hstart hsort trivial trivial

/-- Witness for the amended C3 at the spec's scenario S3: input
`[{5,6},{6.5,7}]`, `pad_left = 2`, `pad_right = 2`. -/
theorem pad_timestamps_bounds_witness :
    padBounds none [seg 5 6, seg (13/2) 7]
      (pad_timestamps [seg 5 6, seg (13/2) 7] (some 2) (some 2)) :=
  pad_timestamps_bounds [seg 5 6, seg (13/2) 7] (some 2) (some 2)
    (by norm_num [seg])
    (by norm_num [List.chain'_cons, List.chain'_singleton, seg])
    (by intro p hp; rw [Option.mem_def, Option.some_inj] at hp; rw [← hp]; norm_num)

theorem head?_dropWhile_false {α : Type} (p : α → Bool) :
    ∀ (l : List α) (x : α), (l.dropWhile p).head? = some x → p x = false := by
  intro l
  induction l with
  | nil => intro x h; simp [List.dropWhile] at h
  | cons a rest ih =>
    intro x h
    by_cases ha : p a
    · rw [List.dropWhile_cons_of_pos ha] at h
      exact ih x h
    · rw [List.dropWhile_cons_of_neg ha] at h
      simp only [List.head?_cons, Option.some.injEq] at h
      rw [← h]
      exact Bool.not_eq_true _ ▸ (by simpa using ha)

/-- C6 counterexample: the claim asserts the window bound for *every*
sequence of transcriber-returned segments, but the eviction loop breaks at
the first front element satisfying the bound.  With
`max_prompt_window = 30`, an empty window, appended segments
`[{0,100},{0,0}]` and `segment_end = 50`, the front `{0,100}` satisfies the
bound (`100 ≥ 20`) so the loop stops, and `{0,0}` stays in the window even
though `0 − 0 < 50 − 30`. -/
theorem update_prompt_window_break_counterexample :
    update_prompt_window (some 30) [] [seg 0 100, seg 0 0] 50 = [seg 0 100, seg 0 0] ∧
    ¬ ((50 : ℚ) - 30 ≤ (seg 0 0).stop - (seg 0 0).expand_amount.getD 0) := by
  constructor
  · norm_num [update_prompt_window, PROMPT_NO_SPEECH_PROB, List.filter, List.dropWhile, seg]
  · norm_num [seg]

/-- C6 (amended): after an update with `max_prompt_window > 0`, provided
every segment already in the window has `no_speech_prob ≤ 0.1`
(the inductive invariant: the window starts empty and only filtered
segments are appended), every remaining segment still has
`no_speech_prob ≤ 0.1`, and the *front* remaining segment (if any)
satisfies `end − expand_amount ≥ segment_end − max_prompt_window`.  The
original claim's bound for *every* remaining segment fails for non-monotone
transcriber output (see the counterexample). -/
theorem update_prompt_window_invariant (mpw : ℚ) (hmpw : 0 < mpw)
    (prompt_window adjusted_segments : List Segment) (segment_end : ℚ)
    (hw : ∀ s ∈ prompt_window, s.no_speech_prob.getD 0 ≤ PROMPT_NO_SPEECH_PROB) :
    (∀ s ∈ update_prompt_window (some mpw) prompt_window adjusted_segments segment_end,
      s.no_speech_prob.getD 0 ≤ PROMPT_NO_SPEECH_PROB) ∧
    (∀ s ∈ (update_prompt_window (some mpw) prompt_window adjusted_segments segment_end).head?,
      segment_end - mpw ≤ s.stop - s.expand_amount.getD 0) := by
  have hupd : update_prompt_window (some mpw) prompt_window adjusted_segments segment_end =
      (prompt_window ++ adjusted_segments.filter
          (fun s => decide (s.no_speech_prob.getD 0 ≤ PROMPT_NO_SPEECH_PROB))).dropWhile
        (fun s => decide (s.stop - s.expand_amount.getD 0 < segment_end - mpw)) := by
    rw [update_prompt_window, if_pos hmpw]
  constructor
  · intro s hs
    rw [hupd] at hs
    have hmem := (List.dropWhile_sublist _).subset hs
    rcases List.mem_append.mp hmem with hold | hnew
    · exact hw s hold
    · exact of_decide_eq_true (List.mem_filter.mp hnew).2
  · intro s hs
    rw [hupd] at hs
    have hfalse := head?_dropWhile_false _ _ s hs
    have := of_decide_eq_false hfalse
    linarith [not_lt.mp this]

/-- Witness for the amended C6: `max_prompt_window = 30`, empty incoming
window, one returned segment ending at `25`, `segment_end = 50`. -/
theorem update_prompt_window_invariant_witness :
    (∀ s ∈ update_prompt_window (some 30) [] [seg 0 25] 50,
      s.no_speech_prob.getD 0 ≤ PROMPT_NO_SPEECH_PROB) ∧
    (∀ s ∈ (update_prompt_window (some 30) [] [seg 0 25] 50).head?,
      (50 : ℚ) - 30 ≤ s.stop - s.expand_amount.getD 0) :=
  update_prompt_window_invariant 30 (by norm_num) [] [seg 0 25] 50 (by simp)

theorem periodicLoop_total (periodic_duration audio_duration : ℚ)
    (hpd : 0 < periodic_duration) :
    ∀ (fuel : Nat) (start_timestamp : ℚ) (result : List Segment),
    audio_duration ≤ start_timestamp + fuel * periodic_duration →
    ∃ r, periodicLoop periodic_duration audio_duration fuel start_timestamp result = some r := by
  intro fuel
  induction fuel with
  | zero =>
    intro start_timestamp result hle
    rw [periodicLoop, if_neg (by push_cast at hle; linarith)]
    exact ⟨result.reverse, rfl⟩
  | succ n ih =>
    intro start_timestamp result hle
    by_cases hlt : start_timestamp < audio_duration
    · rw [periodicLoop, if_pos hlt]
      refine ih _ _ ?_
      rcases le_total (start_timestamp + periodic_duration) audio_duration with hc | hc
      · rw [min_eq_left hc]
        push_cast at hle ⊢
        linarith
      · rw [min_eq_right hc]
        have : (0 : ℚ) ≤ n * periodic_duration :=
          mul_nonneg (Nat.cast_nonneg n) (le_of_lt hpd)
        linarith
    · rw [periodicLoop, if_neg hlt]
      exact ⟨result.reverse, rfl⟩

theorem periodicLoop_stuck (periodic_duration audio_duration : ℚ)
    (hpd : periodic_duration ≤ 0) (hdur : 0 < audio_duration) :
    ∀ (fuel : Nat) (start_timestamp : ℚ) (result : List Segment),
    start_timestamp ≤ 0 →
    periodicLoop periodic_duration audio_duration fuel start_timestamp result = none := by
  intro fuel
  induction fuel with
  | zero =>
    intro start_timestamp result hs
    rw [periodicLoop, if_pos (by linarith)]
  | succ n ih =>
    intro start_timestamp result hs
    rw [periodicLoop, if_pos (by linarith)]
    exact ih _ _ (le_trans (min_le_left _ _) (by linarith))

/-- C10: for every strictly positive `periodic_duration` and every finite
non-negative `audio_duration`, the loop of
`VadPeriodicTranscription.get_transcribe_timestamps` terminates (some fuel
suffices) and returns a finite list; strict positivity is required: for
`periodic_duration ≤ 0` (and a positive duration) `start_timestamp` never
advances past the duration and no amount of fuel completes the loop. -/
theorem periodic_get_transcribe_timestamps_terminates
    (periodic_duration audio_duration : ℚ) (hdur : 0 ≤ audio_duration) :
    (0 < periodic_duration →
      ∃ fuel r, periodicLoop periodic_duration audio_duration fuel 0 [] = some r) ∧
    (periodic_duration ≤ 0 → 0 < audio_duration →
      ∀ fuel, periodicLoop periodic_duration audio_duration fuel 0 [] = none) := by
  constructor
  · intro hpd
    obtain ⟨n, hn⟩ := exists_nat_ge (audio_duration / periodic_duration)
    refine ⟨n, ?_⟩
    refine periodicLoop_total periodic_duration audio_duration hpd n 0 [] ?_
    rw [zero_add]
    calc audio_duration = audio_duration / periodic_duration * periodic_duration := by
          field_simp
      _ ≤ n * periodic_duration := by
          exact mul_le_mul_of_nonneg_right hn (le_of_lt hpd)
  · intro hpd hpos fuel
    exact periodicLoop_stuck periodic_duration audio_duration hpd hpos fuel 0 [] (le_refl 0)

/-- Witness for C10 at `periodic_duration = 2`, `audio_duration = 5`. -/
theorem periodic_get_transcribe_timestamps_terminates_witness :
    ∃ fuel r, periodicLoop 2 5 fuel 0 [] = some r :=
  (periodic_get_transcribe_timestamps_terminates 2 5 (by norm_num)).1 (by norm_num)

/-- C9: during `transcribe`, an interval with `end − start <
MIN_SEGMENT_DURATION` (1 s) is skipped entirely: every interval in the
invocation trace has duration `≥ 1` (so the transcriber — and the audio
loader, which runs in the same branch — is never invoked for a short
interval), and removing the short intervals from the input changes neither
the final state (text, segments, language votes, prompt window) nor the
trace. -/
theorem transcribe_skips_short_intervals (max_prompt_window : Option ℚ)
    (whisperCallable : ℚ → ℚ → Option String → WhisperOutput)
    (merged : List Segment) (st : TState) :
    (∀ p ∈ (transcribeRun max_prompt_window whisperCallable st merged).2,
      MIN_SEGMENT_DURATION ≤ p.1.stop - p.1.start) ∧
    transcribeRun max_prompt_window whisperCallable st
        (merged.filter (fun s => decide (¬ (s.stop - s.start < MIN_SEGMENT_DURATION)))) =
      transcribeRun max_prompt_window whisperCallable st merged := by
  induction merged generalizing st with
  | nil => exact ⟨by simp [transcribeRun], rfl⟩
  | cons s rest ih =>
    by_cases h : s.stop - s.start < MIN_SEGMENT_DURATION
    · constructor
      · intro p hp
        rw [transcribeRun, if_pos h] at hp
        exact (ih st).1 p hp
      · rw [List.filter_cons_of_neg (by simpa using h)]
        rw [transcribeRun, if_pos h]
        exact (ih st).2
    · constructor
      · intro p hp
        rw [transcribeRun, if_neg h] at hp
        rcases List.mem_cons.mp hp with h1 | h1
        · rw [h1]
          exact not_lt.mp h
        · exact (ih (stepState max_prompt_window whisperCallable st s)).1 p h1
      · rw [List.filter_cons_of_pos (by simpa using h)]
        rw [transcribeRun, if_neg h]
        rw [transcribeRun, if_neg h]
        rw [(ih (stepState max_prompt_window whisperCallable st s)).2]

/-- Witness for C9: with a constant transcriber over the single interval
`{0,2}`, the traced interval has duration `≥ 1`. -/
theorem transcribe_skips_short_intervals_witness :
    MIN_SEGMENT_DURATION ≤ (seg 0 2).stop - (seg 0 2).start :=
  (transcribe_skips_short_intervals none (fun _ _ _ => ⟨"t", [], "en"⟩) [seg 0 2] initState).1
    (seg 0 2, ⟨"t", [], "en"⟩)
    (by norm_num [transcribeRun, stepResult, segmentPrompt, initState, MIN_SEGMENT_DURATION, seg])

theorem keysOf_nil : keysOf [] = [] := rfl

theorem keysOf_cons (k : String) (n : Nat) (c : List (String × Nat)) :
    keysOf ((k, n) :: c) = k :: keysOf c := rfl

theorem countIn_counterIncrement : ∀ (c : List (String × Nat)) (l x : String),
    countIn (counterIncrement c l) x = countIn c x + (if x = l then 1 else 0) := by
  intro c
  induction c with
  | nil =>
    intro l x
    by_cases h : x = l
    · simp [counterIncrement, countIn, h]
    · simp [counterIncrement, countIn, h, Ne.symm h]
  | cons p rest ih =>
    intro l x
    obtain ⟨k, n⟩ := p
    by_cases hkl : k = l
    · rw [counterIncrement, if_pos hkl]
      by_cases hkx : k = x
      · have hxl : x = l := hkx ▸ hkl
        simp [countIn, hkx, hxl]
      · have hxl : ¬ x = l := fun h => hkx (hkl ▸ h.symm ▸ rfl)
        simp [countIn, hkx, hxl]
    · rw [counterIncrement, if_neg hkl]
      by_cases hkx : k = x
      · have hxl : ¬ x = l := fun h => hkl (hkx ▸ h)
        simp [countIn, hkx, hxl]
      · simp [countIn, hkx, ih l x]

theorem countVotes_append_single : ∀ (votes : List String) (l x : String),
    countVotes (votes ++ [l]) x = countVotes votes x + (if x = l then 1 else 0) := by
  intro votes
  induction votes with
  | nil =>
    intro l x
    by_cases h : x = l
    · simp [countVotes, h]
    · simp [countVotes, h, Ne.symm h]
  | cons v rest ih =>
    intro l x
    rw [List.cons_append, countVotes, countVotes, ih l x]
    omega

theorem keysOf_counterIncrement : ∀ (c : List (String × Nat)) (l : String),
    keysOf (counterIncrement c l) =
      if l ∈ keysOf c then keysOf c else keysOf c ++ [l] := by
  intro c
  induction c with
  | nil => intro l; simp [counterIncrement, keysOf]
  | cons p rest ih =>
    intro l
    obtain ⟨k, n⟩ := p
    by_cases hkl : k = l
    · subst hkl
      rw [counterIncrement, if_pos rfl,
        if_pos (by rw [keysOf_cons]; exact List.mem_cons_self k (keysOf rest))]
      rfl
    · rw [counterIncrement, if_neg hkl]
      by_cases hmem : l ∈ keysOf rest
      · rw [if_pos (by rw [keysOf_cons]; exact List.mem_cons_of_mem k hmem)]
        rw [keysOf_cons, keysOf_cons, ih l, if_pos hmem]
      · rw [if_neg (by
          rw [keysOf_cons]
          intro hc
          rcases List.mem_cons.mp hc with h1 | h1
          · exact hkl h1.symm
          · exact hmem h1)]
        rw [keysOf_cons, keysOf_cons, ih l, if_neg hmem, List.cons_append]

theorem firstIdx_append_of_mem : ∀ (xs : List String) (ys : List String) (x : String),
    x ∈ xs → firstIdx (xs ++ ys) x = firstIdx xs x := by
  intro xs
  induction xs with
  | nil => intro ys x h; exact absurd h (List.not_mem_nil x)
  | cons v rest ih =>
    intro ys x h
    by_cases hv : v = x
    · simp [firstIdx, hv]
    · have hx : x ∈ rest := by
        rcases List.mem_cons.mp h with h1 | h1
        · exact absurd h1.symm hv
        · exact h1
      simp [firstIdx, hv, ih ys x hx]

theorem firstIdx_append_self_of_not_mem : ∀ (xs : List String) (x : String),
    x ∉ xs → firstIdx (xs ++ [x]) x = xs.length := by
  intro xs
  induction xs with
  | nil => intro x _; simp [firstIdx]
  | cons v rest ih =>
    intro x h
    have hv : ¬ v = x := fun hh => h (hh ▸ List.mem_cons_self v rest)
    have hx : x ∉ rest := fun hh => h (List.mem_cons_of_mem v hh)
    simp [firstIdx, hv, ih x hx]

theorem firstIdx_lt_length_of_mem : ∀ (xs : List String) (x : String),
    x ∈ xs → firstIdx xs x < xs.length := by
  intro xs
  induction xs with
  | nil => intro x h; exact absurd h (List.not_mem_nil x)
  | cons v rest ih =>
    intro x h
    by_cases hv : v = x
    · simp [firstIdx, hv]
    · have hx : x ∈ rest := by
        rcases List.mem_cons.mp h with h1 | h1
        · exact absurd h1.symm hv
        · exact h1
      simp only [firstIdx, hv, if_false, List.length_cons]
      exact Nat.succ_lt_succ (ih x hx)

theorem countVotes_pos_of_mem : ∀ (votes : List String) (x : String),
    x ∈ votes → 0 < countVotes votes x := by
  intro votes
  induction votes with
  | nil => intro x h; exact absurd h (List.not_mem_nil x)
  | cons v rest ih =>
    intro x h
    by_cases hv : v = x
    · simp [countVotes, hv]
    · have hx : x ∈ rest := by
        rcases List.mem_cons.mp h with h1 | h1
        · exact absurd h1.symm hv
        · exact h1
      simp only [countVotes, hv, if_false, Nat.zero_add]
      exact ih x hx

theorem entry_mem_of_countIn_pos : ∀ (c : List (String × Nat)) (x : String),
    0 < countIn c x → (x, countIn c x) ∈ c := by
  intro c
  induction c with
  | nil => intro x h; simp [countIn] at h
  | cons p rest ih =>
    intro x h
    obtain ⟨k, n⟩ := p
    by_cases hkx : k = x
    · rw [countIn, if_pos hkx] at h ⊢
      subst hkx
      exact List.mem_cons_self (k, n) rest
    · rw [countIn, if_neg hkx] at h ⊢
      exact List.mem_cons_of_mem (k, n) (ih x h)

theorem keys_mem_of_countIn_pos (c : List (String × Nat)) (x : String)
    (h : 0 < countIn c x) : x ∈ keysOf c := by
  have := entry_mem_of_countIn_pos c x h
  exact List.mem_map_of_mem Prod.fst this

theorem countIn_of_entry_mem_nodup : ∀ (c : List (String × Nat)) (x : String) (n : Nat),
    (keysOf c).Nodup → (x, n) ∈ c → countIn c x = n := by
  intro c
  induction c with
  | nil => intro x n _ h; exact absurd h (List.not_mem_nil (x, n))
  | cons p rest ih =>
    intro x n hnodup hmem
    obtain ⟨k, m⟩ := p
    rw [keysOf_cons] at hnodup
    have hnd := List.nodup_cons.mp hnodup
    rcases List.mem_cons.mp hmem with h1 | h1
    · have hx : x = k := congrArg Prod.fst h1
      have hn : n = m := congrArg Prod.snd h1
      rw [countIn, if_pos hx.symm]
      exact hn.symm
    · by_cases hkx : k = x
      · exfalso
        have : x ∈ keysOf rest := List.mem_map_of_mem Prod.fst h1
        exact hnd.1 (hkx ▸ this)
      · rw [countIn, if_neg hkx]
        exact ih x n hnd.2 h1

/-- C1: the claim says that with `max_source_time = None`, `adjust_timestamp`
returns each input segment shifted by `adjust_seconds` with all other fields
preserved.  The code instead reads the unassigned local `new_segment` on the
first iteration and raises `UnboundLocalError`; here it is evaluated at the
failing input `segments = [{start: 1, end: 2}]`, `adjust_seconds = 5`,
`max_source_time = None`, where the claim expects `[{start: 6, end: 7}]`. -/
theorem adjust_timestamp_none_raises_unbound_local :
    adjust_timestamp [seg 1 2] 5 none =
      .error "UnboundLocalError: local variable new_segment referenced before assignment" := by
  rfl

/-- C5: `merge_timestamps` on `[{0,10},{10.3,12},{12.4,13}]` with
`max_merge_gap = 0.1`, `max_merge_size = 5`, `min_force_merge_gap = 0.5`,
`max_force_merge_size = 7.5` returns `[{0,10},{10.3,13}]`: the first gap of
`0.3` is neither regular-merged (`0.3 > 0.1`) nor force-merged (current
size `10 > 7.5`), while the second gap of `0.4` is force-merged (current
size `1.7 ≤ 7.5`). -/
theorem merge_timestamps_force_regime_example :
    merge_timestamps [seg 0 10, seg (103/10) 12, seg (124/10) 13]
        (some (1/10)) (some 5) (some (1/2)) (some (15/2)) =
      [seg 0 10, seg (103/10) 13] := by
  norm_num [merge_timestamps, mergeLoop, canMerge, seg]

/-!
## Idempotence of `merge_timestamps` (claim C4)

`canMerge` reads only `entry.start` from its second argument, and the
running entry is flushed with exactly the `end` it had when the merge test
failed, so consecutive entries of the output never satisfy the merge test
again: a second pass merges nothing.
-/

/-- Lemma that `canMerge` looks at the candidate entry only through its `start`. -/
theorem canMerge_stop_update (g : ℚ) (mms mfmg mfms : Option ℚ) (c a : Segment) (q : ℚ) :
    canMerge g mms mfmg mfms c { a with stop := q } = canMerge g mms mfmg mfms c a := by
  simp [canMerge]

/-- The output of `mergeLoop` is non-empty and its head is the running entry
with a possibly different `end`. -/
theorem mergeLoop_head (g : ℚ) (mms mfmg mfms : Option ℚ) :
    ∀ (l : List Segment) (cur : Segment),
      ∃ q t, mergeLoop g mms mfmg mfms cur l = { cur with stop := q } :: t := by
  intro l
  induction l with
  | nil => intro cur; exact ⟨cur.stop, [], rfl⟩
  | cons e rest ih =>
    intro cur
    by_cases h : canMerge g mms mfmg mfms cur e
    · obtain ⟨q, t, hq⟩ := ih { cur with stop := e.stop }
      exact ⟨q, t, by simp [mergeLoop, h, hq]⟩
    · exact ⟨cur.stop, mergeLoop g mms mfmg mfms e rest, by simp [mergeLoop, h]⟩

/-- Consecutive entries of a `mergeLoop` output never satisfy the merge
test. -/
theorem mergeLoop_chain (g : ℚ) (mms mfmg mfms : Option ℚ) :
    ∀ (l : List Segment) (cur : Segment),
      List.Chain' (fun a b => canMerge g mms mfmg mfms a b = false)
        (mergeLoop g mms mfmg mfms cur l) := by
  intro l
  induction l with
  | nil => intro cur; simp [mergeLoop]
  | cons e rest ih =>
    intro cur
    by_cases h : canMerge g mms mfmg mfms cur e
    · simpa [mergeLoop, h] using ih { cur with stop := e.stop }
    · rw [mergeLoop, if_neg (by simp [h]), List.chain'_cons']
      refine ⟨?_, ih e⟩
      intro b hb
      obtain ⟨q, t, hq⟩ := mergeLoop_head g mms mfmg mfms rest e
      rw [hq] at hb
      simp only [List.head?_cons, Option.mem_def, Option.some.injEq] at hb
      rw [← hb, canMerge_stop_update]
      exact Bool.not_eq_true _ ▸ (by simpa using h)

/-- On a list whose consecutive entries never satisfy the merge test,
`mergeLoop` is the identity. -/
theorem mergeLoop_of_chain (g : ℚ) (mms mfmg mfms : Option ℚ) :
    ∀ (l : List Segment) (cur : Segment),
      List.Chain' (fun a b => canMerge g mms mfmg mfms a b = false) (cur :: l) →
      mergeLoop g mms mfmg mfms cur l = cur :: l := by
  intro l
  induction l with
  | nil => intro cur _; rfl
  | cons e rest ih =>
    intro cur hchain
    rw [List.chain'_cons] at hchain
    rw [mergeLoop, if_neg (by simp [hchain.1]), ih e hchain.2]

/-- C4: `merge_timestamps` is idempotent: applying it twice with identical
parameters (`max_merge_gap`, `max_merge_size`, `min_force_merge_gap`,
`max_force_merge_size`) yields the same list as applying it once. -/
theorem merge_timestamps_idempotent (timestamps : List Segment)
    (max_merge_gap max_merge_size min_force_merge_gap max_force_merge_size : Option ℚ) :
    merge_timestamps
        (merge_timestamps timestamps max_merge_gap max_merge_size min_force_merge_gap
          max_force_merge_size)
        max_merge_gap max_merge_size min_force_merge_gap max_force_merge_size =
      merge_timestamps timestamps max_merge_gap max_merge_size min_force_merge_gap
        max_force_merge_size := by
  cases max_merge_gap with
  | none => rfl
  | some g =>
    cases timestamps with
    | nil => rfl
    | cons entry rest =>
      obtain ⟨q, t, hq⟩ := mergeLoop_head g max_merge_size min_force_merge_gap
        max_force_merge_size rest entry
      have h1 : merge_timestamps (entry :: rest) (some g) max_merge_size min_force_merge_gap
          max_force_merge_size = { entry with stop := q } :: t := hq
      have hchain := mergeLoop_chain g max_merge_size min_force_merge_gap
        max_force_merge_size rest entry
      rw [hq] at hchain
      rw [h1]
      show mergeLoop g _ _ _ _ t = _
      exact mergeLoop_of_chain g _ _ _ t _ hchain

/-- C7: the claim says `include_gaps` appends the trailing gap exactly when
`min_gap_length` is `None` or `total_duration − last_end ≥ min_gap_length`.
The code computes the trailing delta from the last segment's *start*
(line 229 uses `segment_start`, not `last_end_time`): at
`segments = [{start: 0, end: 5}]`, `min_gap_length = 6`,
`total_duration = 10` the trailing gap has length `10 − 5 = 5 < 6`, so the
claim expects no gap, yet the code compares `10 − 0 = 10 ≥ 6` and appends
`{start: 5, end: 10, gap: True}`. -/
theorem include_gaps_trailing_uses_segment_start :
    include_gaps [seg 0 5] (some 6) (some 10) = .ok [seg 0 5, gapSeg 5 10] := by
  norm_num [include_gaps, includeLoop, seg, gapSeg]

theorem pairwise_keys_lift (P : String → String → Prop) :
    ∀ (c : List (String × Nat)), List.Pairwise P (keysOf c) →
    List.Pairwise (fun x y => P x.1 y.1) c := by
  intro c
  induction c with
  | nil => intro _; exact List.Pairwise.nil
  | cons p rest ih =>
    intro h
    have h' : List.Pairwise P (p.1 :: keysOf rest) := h
    rw [List.pairwise_cons] at h'
    rw [List.pairwise_cons]
    exact ⟨fun q hq => h'.1 q.1 (List.mem_map_of_mem Prod.fst hq), ih h'.2⟩

theorem pairwise_firstIdx_extend (votes ys : List String) :
    ∀ (ks : List String), (∀ k ∈ ks, k ∈ votes) →
    List.Pairwise (fun a b => firstIdx votes a < firstIdx votes b) ks →
    List.Pairwise (fun a b => firstIdx (votes ++ ys) a < firstIdx (votes ++ ys) b) ks := by
  intro ks
  induction ks with
  | nil => intro _ _; exact List.Pairwise.nil
  | cons k rest ih =>
    intro hmem hp
    rw [List.pairwise_cons] at hp ⊢
    constructor
    · intro b hb
      rw [firstIdx_append_of_mem votes ys k (hmem k (List.mem_cons_self k rest)),
        firstIdx_append_of_mem votes ys b (hmem b (List.mem_cons_of_mem k hb))]
      exact hp.1 b hb
    · exact ih (fun x hx => hmem x (List.mem_cons_of_mem k hx)) hp.2

theorem counterSpec_increment (votes : List String) (c : List (String × Nat)) (l : String)
    (h : CounterSpec votes c) : CounterSpec (votes ++ [l]) (counterIncrement c l) := by
  obtain ⟨hcount, hkeys, hpair⟩ := h
  refine ⟨?_, ?_, ?_⟩
  · intro x
    rw [countIn_counterIncrement, countVotes_append_single, hcount]
  · intro k hk
    rw [keysOf_counterIncrement] at hk
    by_cases hl : l ∈ keysOf c
    · rw [if_pos hl] at hk
      exact List.mem_append_left [l] (hkeys k hk)
    · rw [if_neg hl] at hk
      rcases List.mem_append.mp hk with h1 | h1
      · exact List.mem_append_left [l] (hkeys k h1)
      · rw [List.mem_singleton] at h1
        exact List.mem_append_right votes (h1 ▸ List.mem_singleton_self l)
  · rw [keysOf_counterIncrement]
    by_cases hl : l ∈ keysOf c
    · rw [if_pos hl]
      exact pairwise_firstIdx_extend votes [l] (keysOf c) hkeys hpair
    · rw [if_neg hl]
      rw [List.pairwise_append]
      refine ⟨pairwise_firstIdx_extend votes [l] (keysOf c) hkeys hpair, by simp, ?_⟩
      intro a ha b hb
      rw [List.mem_singleton] at hb
      rw [hb]
      have hav : a ∈ votes := hkeys a ha
      have hlnot : l ∉ votes := by
        intro hlv
        have h1 : 0 < countVotes votes l := countVotes_pos_of_mem votes l hlv
        rw [← hcount l] at h1
        exact hl (keys_mem_of_countIn_pos c l h1)
      rw [firstIdx_append_of_mem votes [l] a hav,
        firstIdx_append_self_of_not_mem votes l hlnot]
      exact firstIdx_lt_length_of_mem votes a hav

theorem counterSpec_nil : CounterSpec [] [] :=
  ⟨fun _ => rfl, fun k hk => absurd hk (List.not_mem_nil k), List.Pairwise.nil⟩

theorem counterSpec_foldl : ∀ (new votes : List String) (c : List (String × Nat)),
    CounterSpec votes c → CounterSpec (votes ++ new) (new.foldl counterIncrement c) := by
  intro new
  induction new with
  | nil => intro votes c h; simpa using h
  | cons v rest ih =>
    intro votes c h
    have h2 := ih (votes ++ [v]) (counterIncrement c v) (counterSpec_increment votes c v h)
    rw [List.foldl_cons]
    simpa [List.append_assoc] using h2

theorem mcGo_mem : ∀ (c : List (String × Nat)) (b : String × Nat), mcGo b c ∈ b :: c := by
  intro c
  induction c with
  | nil => intro b; rw [mcGo]; exact List.mem_cons_self b []
  | cons p rest ih =>
    intro b
    rw [mcGo]
    by_cases h : b.2 < p.2
    · rw [if_pos h]
      exact List.mem_cons_of_mem b (ih p)
    · rw [if_neg h]
      rcases List.mem_cons.mp (ih b) with h1 | h1
      · rw [h1]
        exact List.mem_cons_self b (p :: rest)
      · exact List.mem_cons_of_mem b (List.mem_cons_of_mem p h1)

theorem mcGo_max : ∀ (c : List (String × Nat)) (b q : String × Nat),
    q ∈ b :: c → q.2 ≤ (mcGo b c).2 := by
  intro c
  induction c with
  | nil =>
    intro b q hq
    rw [List.mem_singleton] at hq
    rw [mcGo, hq]
  | cons p rest ih =>
    intro b q hq
    rw [mcGo]
    by_cases h : b.2 < p.2
    · rw [if_pos h]
      rcases List.mem_cons.mp hq with h1 | h1
      · rw [h1]
        exact le_trans (le_of_lt h) (ih p p (List.mem_cons_self p rest))
      · exact ih p q h1
    · rw [if_neg h]
      rcases List.mem_cons.mp hq with h1 | h1
      · rw [h1]
        exact ih b b (List.mem_cons_self b rest)
      · rcases List.mem_cons.mp h1 with h2 | h2
        · rw [h2]
          exact le_trans (not_lt.mp h) (ih b b (List.mem_cons_self b rest))
        · exact ih b q (List.mem_cons_of_mem b h2)

theorem mcGo_tie (F : String → Nat) : ∀ (c : List (String × Nat)) (b : String × Nat),
    List.Pairwise (fun x y => F x.1 < F y.1) (b :: c) →
    ∀ q ∈ b :: c, q.2 = (mcGo b c).2 → F (mcGo b c).1 ≤ F q.1 := by
  intro c
  induction c with
  | nil =>
    intro b _ q hq _
    rw [List.mem_singleton] at hq
    rw [mcGo, hq]
  | cons p rest ih =>
    intro b hpair q hq heq
    have hsplit := List.pairwise_cons.mp hpair
    have hbp : F b.1 < F p.1 := hsplit.1 p (List.mem_cons_self p rest)
    have hprest : List.Pairwise (fun x y => F x.1 < F y.1) (p :: rest) := hsplit.2
    have hbrest : List.Pairwise (fun x y => F x.1 < F y.1) (b :: rest) :=
      List.pairwise_cons.mpr
        ⟨fun y hy => hsplit.1 y (List.mem_cons_of_mem p hy),
          (List.pairwise_cons.mp hprest).2⟩
    rw [mcGo] at heq ⊢
    by_cases h : b.2 < p.2
    · rw [if_pos h] at heq ⊢
      rcases List.mem_cons.mp hq with h1 | h1
      · exfalso
        have hple := mcGo_max rest p p (List.mem_cons_self p rest)
        rw [h1] at heq
        omega
      · exact ih p hprest q h1 heq
    · rw [if_neg h] at heq ⊢
      rcases List.mem_cons.mp hq with h1 | h1
      · rw [h1] at heq ⊢
        exact ih b hbrest b (List.mem_cons_self b rest) heq
      · rcases List.mem_cons.mp h1 with h2 | h2
        · rw [h2] at heq ⊢
          have hble := mcGo_max rest b b (List.mem_cons_self b rest)
          have hpb : p.2 ≤ b.2 := not_lt.mp h
          have hbeq : b.2 = (mcGo b rest).2 := by omega
          exact le_trans (ih b hbrest b (List.mem_cons_self b rest) hbeq) (le_of_lt hbp)
        · exact ih b hbrest q (List.mem_cons_of_mem b h2) heq

/-- The final `languageCounter` is the fold of `counterIncrement` over the
languages of the invocation trace, in order. -/
theorem transcribeRun_counter (max_prompt_window : Option ℚ)
    (whisperCallable : ℚ → ℚ → Option String → WhisperOutput) :
    ∀ (merged : List Segment) (st : TState),
    ((transcribeRun max_prompt_window whisperCallable st merged).1).languageCounter =
      ((transcribeRun max_prompt_window whisperCallable st merged).2.map
        (fun p => p.2.language)).foldl counterIncrement st.languageCounter := by
  intro merged
  induction merged with
  | nil => intro st; rfl
  | cons s rest ih =>
    intro st
    by_cases h : s.stop - s.start < MIN_SEGMENT_DURATION
    · rw [transcribeRun, if_pos h]
      exact ih st
    · rw [transcribeRun, if_neg h]
      simp only [List.map_cons, List.foldl_cons]
      exact ih (stepState max_prompt_window whisperCallable st s)

/-- C8: `transcribe` sets `result.language` to the language with the most
votes among the transcriber outputs of the processed intervals, and on
equal vote counts the earliest-voted language wins (smallest index of first
occurrence); concretely, votes `[en, en, fr]` yield `"en"` and the tied
votes `[en, fr]` also yield `"en"`. -/
theorem transcribe_language_vote (max_prompt_window : Option ℚ)
    (whisperCallable : ℚ → ℚ → Option String → WhisperOutput) (merged : List Segment)
    (hne : transcribeVotes max_prompt_window whisperCallable merged ≠ []) :
    ((transcribe max_prompt_window whisperCallable merged).language ∈
        transcribeVotes max_prompt_window whisperCallable merged ∧
      (∀ l ∈ transcribeVotes max_prompt_window whisperCallable merged,
        countVotes (transcribeVotes max_prompt_window whisperCallable merged) l ≤
          countVotes (transcribeVotes max_prompt_window whisperCallable merged)
            (transcribe max_prompt_window whisperCallable merged).language) ∧
      (∀ l ∈ transcribeVotes max_prompt_window whisperCallable merged,
        countVotes (transcribeVotes max_prompt_window whisperCallable merged) l =
          countVotes (transcribeVotes max_prompt_window whisperCallable merged)
            (transcribe max_prompt_window whisperCallable merged).language →
        firstIdx (transcribeVotes max_prompt_window whisperCallable merged)
            (transcribe max_prompt_window whisperCallable merged).language ≤
          firstIdx (transcribeVotes max_prompt_window whisperCallable merged) l)) ∧
    (transcribe none whisperVoteExample [seg 0 10, seg 10 20, seg 20 30]).language = "en" ∧
    (transcribe none whisperTieExample [seg 0 10, seg 10 20]).language = "en" := by
  refine ⟨?_, ?_, ?_⟩
  · set votes := transcribeVotes max_prompt_window whisperCallable merged with hv
    set c := (transcribeRun max_prompt_window whisperCallable initState merged).1.languageCounter
      with hcdef
    have hc : c = List.foldl counterIncrement [] votes := by
      rw [hcdef, transcribeRun_counter max_prompt_window whisperCallable merged initState, hv]
      rfl
    have hspec : CounterSpec votes c := by
      rw [hc]
      simpa using counterSpec_foldl votes [] [] counterSpec_nil
    obtain ⟨hcount, hkeys, hpair⟩ := hspec
    obtain ⟨v, hvmem⟩ := List.exists_mem_of_ne_nil votes hne
    have hvpos : 0 < countIn c v := by
      rw [hcount v]
      exact countVotes_pos_of_mem votes v hvmem
    have hcne : c ≠ [] := by
      intro h0
      rw [h0] at hvpos
      simp [countIn] at hvpos
    obtain ⟨b, cr, hcc⟩ := List.exists_cons_of_ne_nil hcne
    have hlang : (transcribe max_prompt_window whisperCallable merged).language =
        (mcGo b cr).1 := by
      have h0 : (transcribe max_prompt_window whisperCallable merged).language =
          match most_common1 c with
          | some p => p.1
          | none => "" := rfl
      rw [h0, hcc]
      simp [most_common1]
    have hnodup : (keysOf c).Nodup :=
      hpair.imp (fun hab => by intro he; rw [he] at hab; exact lt_irrefl _ hab)
    have hpair' : List.Pairwise (fun x y : String × Nat =>
        firstIdx votes x.1 < firstIdx votes y.1) c :=
      pairwise_keys_lift (fun a b => firstIdx votes a < firstIdx votes b) c hpair
    have hpairbc : List.Pairwise (fun x y : String × Nat =>
        firstIdx votes x.1 < firstIdx votes y.1) (b :: cr) := by
      rw [← hcc]
      exact hpair'
    have hmem_res : mcGo b cr ∈ c := by
      rw [hcc]
      exact mcGo_mem cr b
    have hres_count : countIn c (mcGo b cr).1 = (mcGo b cr).2 :=
      countIn_of_entry_mem_nodup c (mcGo b cr).1 (mcGo b cr).2 hnodup hmem_res
    refine ⟨?_, ?_, ?_⟩
    · rw [hlang]
      exact hkeys _ (List.mem_map_of_mem Prod.fst hmem_res)
    · intro l hl
      rw [hlang]
      have hlpos : 0 < countIn c l := by
        rw [hcount l]
        exact countVotes_pos_of_mem votes l hl
      have hentry : (l, countIn c l) ∈ b :: cr := by
        rw [← hcc]
        exact entry_mem_of_countIn_pos c l hlpos
      have hle : countIn c l ≤ (mcGo b cr).2 := mcGo_max cr b (l, countIn c l) hentry
      calc countVotes votes l = countIn c l := (hcount l).symm
        _ ≤ (mcGo b cr).2 := hle
        _ = countIn c (mcGo b cr).1 := hres_count.symm
        _ = countVotes votes (mcGo b cr).1 := hcount _
    · intro l hl heq
      rw [hlang] at heq ⊢
      have hlpos : 0 < countIn c l := by
        rw [hcount l]
        exact countVotes_pos_of_mem votes l hl
      have hentry : (l, countIn c l) ∈ b :: cr := by
        rw [← hcc]
        exact entry_mem_of_countIn_pos c l hlpos
      have hq2 : countIn c l = (mcGo b cr).2 := by
        rw [hcount l, heq, ← hres_count, hcount]
      exact mcGo_tie (firstIdx votes) cr b hpairbc (l, countIn c l) hentry hq2
  · norm_num [transcribe, transcribeRun, transcribeVotes, stepState, stepResult, segmentPrompt,
      adjustSome, propagateExpand, update_prompt_window, counterIncrement, most_common1, mcGo,
      initState, whisperVoteExample, seg, MIN_SEGMENT_DURATION,
      show ("en" : String) ≠ "fr" from by decide]
  · norm_num [transcribe, transcribeRun, transcribeVotes, stepState, stepResult, segmentPrompt,
      adjustSome, propagateExpand, update_prompt_window, counterIncrement, most_common1, mcGo,
      initState, whisperTieExample, seg, MIN_SEGMENT_DURATION,
      show ("en" : String) ≠ "fr" from by decide]

/-- Witness for C8: the theorem applied at scenario S6 (votes
`[en, en, fr]` over three ten-second intervals). -/
theorem transcribe_language_vote_witness :
    ((transcribe none whisperVoteExample [seg 0 10, seg 10 20, seg 20 30]).language ∈
        transcribeVotes none whisperVoteExample [seg 0 10, seg 10 20, seg 20 30] ∧
      (∀ l ∈ transcribeVotes none whisperVoteExample [seg 0 10, seg 10 20, seg 20 30],
        countVotes (transcribeVotes none whisperVoteExample [seg 0 10, seg 10 20, seg 20 30]) l ≤
          countVotes (transcribeVotes none whisperVoteExample [seg 0 10, seg 10 20, seg 20 30])
            (transcribe none whisperVoteExample [seg 0 10, seg 10 20, seg 20 30]).language) ∧
      (∀ l ∈ transcribeVotes none whisperVoteExample [seg 0 10, seg 10 20, seg 20 30],
        countVotes (transcribeVotes none whisperVoteExample [seg 0 10, seg 10 20, seg 20 30]) l =
          countVotes (transcribeVotes none whisperVoteExample [seg 0 10, seg 10 20, seg 20 30])
            (transcribe none whisperVoteExample [seg 0 10, seg 10 20, seg 20 30]).language →
        firstIdx (transcribeVotes none whisperVoteExample [seg 0 10, seg 10 20, seg 20 30])
            (transcribe none whisperVoteExample [seg 0 10, seg 10 20, seg 20 30]).language ≤
          firstIdx (transcribeVotes none whisperVoteExample [seg 0 10, seg 10 20, seg 20 30]) l)) ∧
    (transcribe none whisperVoteExample [seg 0 10, seg 10 20, seg 20 30]).language = "en" ∧
    (transcribe none whisperTieExample [seg 0 10, seg 10 20]).language = "en" :=
  transcribe_language_vote none whisperVoteExample [seg 0 10, seg 10 20, seg 20 30]
    (by
      norm_num [transcribeVotes, transcribeRun, stepState, stepResult, segmentPrompt,
        adjustSome, propagateExpand, update_prompt_window, counterIncrement,
        initState, whisperVoteExample, seg, MIN_SEGMENT_DURATION]
      decide)
